import Mathlib

/-!
Verification of libedwa against its specification.

Part 1 embeds the browser-side form library `src/jsonforms.js` (and its
variant `src/unnamed/part_000`): a JavaScript value model, the helpers
`get_value` / `get_errors`, and the form generators `make_input`,
`makeNestedForm` and `make_jsonform`, modelled as explicit state passing
(context dictionary plus the module-level `next_id` counter).

Part 2 models the navigation core (codec, signer, transport backends,
navigation engine).  The core's Python sources are not part of this
repository snapshot (only the project README describes them), so those
definitions are modelled from the specification, as marked in their
doc comments.
-/

namespace JsonForms

/-- A JavaScript value, as manipulated by jsonforms.js: `null`, `undefined`,
booleans, numbers, strings, arrays and plain objects (association lists of
own properties, in insertion order). -/
inductive JVal where
  | null
  | undef
  | bool (b : Bool)
  | num (n : Int)
  | str (s : String)
  | arr (xs : List JVal)
  | obj (fields : List (String × JVal))

/-- A context dictionary (a plain JS object used as a key-value store). -/
abbrev JDict := List (String × JVal)

/-- `$.isPlainObject(x)`: true exactly for plain objects (not arrays,
primitives, null or undefined). -/
def isPlainObject : JVal → Bool
  | .obj _ => true
  | _ => false

/-- JS truthiness. -/
def truthy : JVal → Bool
  | .null => false
  | .undef => false
  | .bool b => b
  | .num n => n != 0
  | .str s => s != ""
  | .arr _ => true
  | .obj _ => true

/-- Property read `x[k]` on a value: an absent key (or a non-object
receiver) yields `undefined`. -/
def jfield (x : JVal) (k : String) : JVal :=
  match x with
  | .obj fs => match fs.lookup k with
    | some v => v
    | none => .undef
  | _ => (.undef)

/-- Dictionary read `d[k]`, `undefined` when absent. -/
def jget (d : JDict) (k : String) : JVal :=
  match d.lookup k with
  | some v => v
  | none => (.undef)

/-- Dictionary write `d[k] = v`: replaces the first binding of `k`, or
appends a new binding. -/
def jset (d : JDict) (k : String) (v : JVal) : JDict :=
  match d with
  | [] => [(k, v)]
  | (k', v') :: rest => if k' == k then (k, v) :: rest else (k', v') :: jset rest k v

/-- JS `a || b`. -/
def jsOr (a b : JVal) : JVal := if truthy a then a else b

/-- jsonforms.js line 12: `get_value(x)` returns `x.value` for plain
objects and `x` itself otherwise. -/
def get_value (x : JVal) : JVal :=
  if isPlainObject x then jfield x "value" else x

/-- jsonforms.js line 16: `get_errors(x)` returns `x.errors || []` for
plain objects and `[]` otherwise. -/
def get_errors (x : JVal) : JVal :=
  if isPlainObject x then jsOr (jfield x "errors") (.arr []) else .arr []

mutual

/-- JS string coercion (`"" + x` and friends). -/
def jsToString : JVal → String
  | .null => "null"
  | .undef => "undefined"
  | .bool b => if b then "true" else "false"
  | .num n => toString n
  | .str s => s
  | .arr xs => String.intercalate "," (jsToStringList xs)
  | .obj _ => "[object Object]"

def jsToStringList : List JVal → List String
  | [] => []
  | x :: xs => jsToString x :: jsToStringList xs

end

/-- String assigned by the DOM when `input.value = x` runs: `null` maps to
the empty string (LegacyNullToEmptyString), everything else is coerced. -/
def domValueString (x : JVal) : String :=
  match x with
  | .null => ""
  | x => jsToString x

/-- The `.length` property of a value (`undefined` on non-arrays and
non-strings). -/
def jsLength : JVal → JVal
  | .arr xs => .num xs.length
  | .str s => .num s.length
  | _ => (.undef)

/-- The values visited by `for (ii in x) ... x[ii]`: array elements, the
index characters of a string (through its wrapper object), the own
property values of a plain object, and nothing for other primitives. -/
def forInElems : JVal → List JVal
  | .arr xs => xs
  | .str s => s.data.map (fun c => .str (String.singleton c))
  | .obj fs => fs.map (fun kv => kv.2)
  | _ => []

/-- The elements `$.map` iterates over: arrays element-wise, array-likes
(strings) index-wise, plain objects value-wise, other primitives none. -/
def jqMapElems : JVal → List JVal
  | .arr xs => xs
  | .str s => s.data.map (fun c => .str (String.singleton c))
  | .obj fs => fs.map (fun kv => kv.2)
  | _ => []

/-- The CSS class stem `edwa.css_prefix` (jsonforms.js line 6). -/
def cssStem : String := "edwa-"

/-- The DOM `<input>`/`<select>` element built from `make_input`'s
`input_str` argument, with the dynamic properties the handler reads and
writes: `type`, `id`, `value`, `checked`, and for selects the list of
`(option value, selected)` pairs (including any browser-applied default
selection). -/
structure InputElem where
  type : String
  id : String
  value : String
  checked : Bool
  options : List (String × Bool)

/-- The `<tr>` a `make_input` handler returns, as the data the source
puts into it: the label cell HTML (which embeds the generated element
id), the final state of the input element, the help text shown in the
message div, and the `<li>` payloads of the error list. -/
structure InputRow where
  label_th : String
  input : InputElem
  help_shown : Option String
  error_items : List JVal

/-- Result of one run of a `make_input` handler: the returned row, the
updated context dictionary, and the updated module-level `next_id`. -/
structure InputRunResult where
  row : InputRow
  data : JDict
  next_id : Nat

/-- jsonforms.js lines 23-84: the handler produced by
`make_input(name, label_text, help_text, input_str)`, run on a context
dictionary `data` with the module counter `edwa.jsonforms.next_id` at
`nid`.  Mirrors the source line by line: a fresh element id is drawn
from the counter; if `name in data` the element is synced from the
stored value (select / checkbox / text branches), errors are collected
and the stored value is simplified to `get_value(..) || ""`; then the
change handler is bound and fired once (line 76), which writes the
element's current value back into `data[name]`; finally the `<tr>` is
assembled (hidden inputs get an empty label cell). -/
def make_input_run (name label_text help_text : String) (input0 : InputElem)
    (data : JDict) (nid : Nat) : InputRunResult :=
  let input_id := "id_edwa_" ++ toString nid
  let nid' := nid + 1
  let input1 : InputElem := { input0 with id := input_id }
  let label_str := "<th align='right'><div class='" ++ cssStem ++
    "label'><label for='" ++ input_id ++ "'>" ++ label_text ++ "</label></div></th>"
  let isSel := input1.type.startsWith "select"
  let isCheck := input1.type == "checkbox" || input1.type == "radio"
  let present := (data.lookup name).isSome
  let v0 := jget data name
  let input2 :=
    if present then
      if isSel then
        let values := (jqMapElems (get_value v0)).map jsToString
        { input1 with options := input1.options.map (fun p => (p.1, values.contains p.1)) }
      else if isCheck then { input1 with checked := truthy (get_value v0) }
      else { input1 with value := domValueString (get_value v0) }
    else input1
  let errs := get_errors v0
  let error_items := if present && truthy (jsLength errs) then forInElems errs else []
  let data1 := if present then jset data name (jsOr (get_value v0) (.str "")) else data
  let data2 :=
    if isSel then jset data1 name (.arr (((input2.options.filter (fun p => p.2)).map (fun p => JVal.str p.1))))
    else if isCheck then jset data1 name (.bool input2.checked)
    else jset data1 name (.str input2.value)
  let label_th :=
    if input2.type != "hidden" then label_str
    else "<th align='right'><div class='" ++ cssStem ++ "label'></th>"
  let help_shown := if help_text != "" then some help_text else none
  ⟨⟨label_th, input2, help_shown, error_items⟩, data2, nid'⟩

/-- One field of a `makeNestedForm` template.  In the library, template
entries are the handlers produced by `make_input` (c.f. `makeTextInput`
in part_000 line 61), so a field is `make_input`'s four arguments. -/
structure FieldSpec where
  name : String
  label_text : String
  help_text : String
  input : InputElem

/-- jsonforms.js lines 110-114: run every template field handler over one
item of the data list, threading the item dictionary and the id counter.
Returns `none` for the TypeError JS raises when a field handler evaluates
`name in data` on a non-object item (with a non-empty template). -/
def runTemplate : List FieldSpec → JVal → Nat → Option (List InputRow × JVal × Nat)
  | [], item, nid => some ([], item, nid)
  | f :: fs, item, nid =>
    match item with
    | .obj dict =>
      let r := make_input_run f.name f.label_text f.help_text f.input dict nid
      (runTemplate fs (.obj r.data) r.next_id).map (fun q => (r.row :: q.1, q.2))
    | _ => none

/-- One `<table>` built by `make_table` (jsonforms.js line 107): its rows
and whether the remove link was prepended. -/
structure TableM where
  rows : List InputRow
  removable : Bool

/-- jsonforms.js lines 141-145: the `for(ii in data_list)` loop.  Each
item is run through the template (mutating it in place) and wrapped in a
table.  A TypeError from a non-object item aborts the loop, leaving the
later items untouched (`ok = false`); items already processed stay
mutated, as JS exceptions do not roll back assignments. -/
def runItems (tpl : List FieldSpec) (removable : Bool) :
    List JVal → Nat → List JVal × List TableM × Nat × Bool
  | [], nid => ([], [], nid, true)
  | item :: rest, nid =>
    match runTemplate tpl item nid with
    | none => (item :: rest, [], nid, false)
    | some (rows, item', nid') =>
      let r := runItems tpl removable rest nid'
      (item' :: r.1, ⟨rows, removable⟩ :: r.2.1, r.2.2.1, r.2.2.2)

/-- Write the processed items back through the alias `all_data[name] ==
data_list`: items of an array replace its elements, items of a plain
object replace its property values; strings and other primitives are
unchanged (their items were copies). -/
def rebuildList (orig : JVal) (items : List JVal) : JVal :=
  match orig with
  | .arr _ => .arr items
  | .obj fs => .obj (List.zipWith (fun kv v => (kv.1, v)) fs items)
  | x => x

/-- The defaults object literal of jsonforms.js lines 89-95. -/
def nestedDefaults : JDict :=
  [("allow_add", .bool true), ("allow_remove", .bool true),
   ("add_icon", .str "(+)"), ("remove_icon", .str "(-)"),
   ("_return_td", .bool false)]

/-- `$.extend(target, src)`: copy each own property of `src` into
`target` in order, skipping properties whose value is `undefined`;
jQuery mutates and returns `target`. -/
def jExtend (target src : JDict) : JDict :=
  src.foldl (fun t kv => match kv.2 with
    | .undef => t
    | v => jset t kv.1 v) target

/-- Result of one run of a `makeNestedForm` handler: the updated context
dictionary and id counter, whether the run completed without a JS
TypeError, and the markup pieces the source assembles (the per-item
tables, whether the add link was appended, the error `<li>` payloads,
the label, and whether the bare `<td>` was returned instead of the
`<tr>`). -/
structure NestedResult where
  all_data : JDict
  next_id : Nat
  ok : Bool
  tables : List TableM
  add_link : Bool
  error_items : List JVal
  label : String
  is_td : Bool

/-- jsonforms.js lines 88-174: the handler produced by
`makeNestedForm(name, label, template, extras)` run on `all_data` with
the id counter at `nid`.  Mirrors the source: the extras are the
defaults extended by the caller's object (line 89); a missing `name`
key is initialised to `[]` (line 97); errors are extracted and the
stored value simplified to `get_value(..) || []` (lines 99-101); every
item of the list is run through the template (lines 141-145); the add
link is appended when `allow_add` (line 154); the error list is
rendered when `errs.length` (line 157); and the `<td>` or the whole
`<tr>` is returned according to `_return_td` (line 170). -/
def makeNestedForm_run (name label : String) (tpl : List FieldSpec)
    (extras0 : JDict) (all_data : JDict) (nid : Nat) : NestedResult :=
  let extras := jExtend nestedDefaults extras0
  let all_data1 := if (all_data.lookup name).isSome then all_data
                   else jset all_data name (.arr [])
  let v := jget all_data1 name
  let errs := get_errors v
  let data_list := jsOr (get_value v) (.arr [])
  let all_data2 := jset all_data1 name data_list
  let items := forInElems data_list
  let r := runItems tpl (truthy (jget extras "allow_remove")) items nid
  let all_data3 := jset all_data2 name (rebuildList data_list r.1)
  let error_items := if truthy (jsLength errs) then forInElems errs else []
  ⟨all_data3, r.2.2.1, r.2.2.2, r.2.1,
   truthy (jget extras "allow_add"), error_items, label,
   truthy (jget extras "_return_td")⟩

/-- The overrides object literal of jsonforms.js lines 178-182. -/
def jsonformOverrides : JDict :=
  [("allow_add", .bool false), ("allow_remove", .bool false),
   ("_return_td", .bool true)]

/-- Result of `make_jsonform`: the nested-form run (`none` when
`data.push({})` threw a TypeError on a length-0 non-array before the
nested handler could run), plus the caller's `extras` object after the
call (`$.extend(extras, ...)` mutates its first argument). -/
structure JsonformResult where
  nested : Option NestedResult
  extras_after : JDict

/-- jsonforms.js lines 177-187: `make_jsonform(data, template, extras)`.
The caller's extras object is extended in place with
`{allow_add: false, allow_remove: false, _return_td: true}` (line 178),
the data is unwrapped with `get_value` and an empty array gets one blank
item pushed (lines 183-184; `data.length == 0` on the empty string would
make the `push` throw), and the `makeNestedForm` handler is invoked on
`{x: data}`. -/
def make_jsonform_run (data0 : JVal) (tpl : List FieldSpec)
    (extras : JDict) (nid : Nat) : JsonformResult :=
  let extras' := jExtend extras jsonformOverrides
  let data1 := get_value data0
  match data1 with
  | .str "" => ⟨none, extras'⟩
  | .arr [] =>
    ⟨some (makeNestedForm_run "x" "x" tpl extras' [("x", .arr [.obj []])] nid), extras'⟩
  | d =>
    ⟨some (makeNestedForm_run "x" "x" tpl extras' [("x", d)] nid), extras'⟩

/-- Whether a value is a JS sequence (an array). -/
def isSeq : JVal → Bool
  | .arr _ => true
  | _ => false

/-- A plain `<input type='text'>` element, as `$("<input type='text'>")`
builds it: empty value, unchecked, no options. -/
def textInput : InputElem :=
  ⟨"text", "", "", false, []⟩

end JsonForms

namespace Edwa

/-- Modelled from the spec: the closed set of context value types the
Codec round-trips — "numbers, strings, booleans, nested
mappings/sequences of the same" (spec section 4.1, design note on the
closed value model). -/
inductive Value where
  | num (i : Int)
  | str (s : String)
  | bool (b : Bool)
  | seq (xs : List Value)
  | map (kvs : List (String × Value))

/-- Modelled from the spec: a Context is "a mapping from string key to an
arbitrary serializable value" (spec section 3). -/
abbrev Ctx := List (String × Value)

/-- Modelled from the spec: a Frame is
`{view_reference, context, return_handler_reference, return_context}`
(spec section 3). -/
structure Frame where
  view_reference : String
  context : Ctx
  return_handler_reference : Option String
  return_context : Ctx

/-! ### Codec

Modelled from the spec (section 4.1): `encode(stack) -> bytes`,
`decode(bytes) -> stack`, pure data reconstruction over the closed value
model.  The Python original (not in this snapshot) used pickle; the wire
format here is a tagged, length-prefixed symbol stream, with symbols
modelled as natural numbers. -/

/-- Length-prefixed string encoding: the character count followed by the
code points. -/
def encString (s : String) : List Nat :=
  s.length :: s.data.map Char.toNat

/-- Decode a length-prefixed string. -/
def decodeString (input : List Nat) : Option (String × List Nat) :=
  match input with
  | [] => none
  | n :: rest =>
    if n ≤ rest.length then
      some (String.mk ((rest.take n).map Char.ofNat), rest.drop n)
    else none

mutual

/-- Tagged encoding of one value: 0 = number (sign, magnitude),
1 = string, 2 = boolean, 3 = sequence (count then elements),
4 = mapping (count then key/value pairs). -/
def encValue : Value → List Nat
  | .num i => [0, if i < 0 then 1 else 0, i.natAbs]
  | .str s => 1 :: encString s
  | .bool b => [2, if b then 1 else 0]
  | .seq xs => 3 :: xs.length :: encValueList xs
  | .map kvs => 4 :: kvs.length :: encEntryList kvs

def encValueList : List Value → List Nat
  | [] => []
  | v :: vs => encValue v ++ encValueList vs

def encEntryList : List (String × Value) → List Nat
  | [] => []
  | (k, v) :: rest => encString k ++ encValue v ++ encEntryList rest

end

mutual

/-- Nesting depth of a value (used to size the decoder's fuel). -/
def depthV : Value → Nat
  | .num _ => 0
  | .str _ => 0
  | .bool _ => 0
  | .seq xs => depthVList xs + 1
  | .map kvs => depthEntries kvs + 1

def depthVList : List Value → Nat
  | [] => 0
  | v :: vs => max (depthV v) (depthVList vs)

def depthEntries : List (String × Value) → Nat
  | [] => 0
  | (_, v) :: rest => max (depthV v) (depthEntries rest)

end

mutual

/-- Decode one value.  `fuel` bounds the nesting depth; the top-level
`decode` passes a fuel derived from the input length, which the
round-trip proof shows is always sufficient. -/
def decodeValue : Nat → List Nat → Option (Value × List Nat)
  | 0, _ => none
  | _ + 1, 0 :: s :: m :: rest =>
    some (.num (if s = 1 then -(m : Int) else (m : Int)), rest)
  | _ + 1, 1 :: rest =>
    (decodeString rest).map (fun p => (.str p.1, p.2))
  | _ + 1, 2 :: b :: rest => some (.bool (b == 1), rest)
  | fuel + 1, 3 :: n :: rest =>
    (decodeValueList fuel n rest).map (fun p => (.seq p.1, p.2))
  | fuel + 1, 4 :: n :: rest =>
    (decodeEntryList fuel n rest).map (fun p => (.map p.1, p.2))
  | _ + 1, _ => none

def decodeValueList : Nat → Nat → List Nat → Option (List Value × List Nat)
  | _, 0, input => some ([], input)
  | fuel, n + 1, input =>
    (decodeValue fuel input).bind (fun p =>
      (decodeValueList fuel n p.2).map (fun q => (p.1 :: q.1, q.2)))

def decodeEntryList : Nat → Nat → List Nat → Option (List (String × Value) × List Nat)
  | _, 0, input => some ([], input)
  | fuel, n + 1, input =>
    (decodeString input).bind (fun pk =>
      (decodeValue fuel pk.2).bind (fun pv =>
        (decodeEntryList fuel n pv.2).map (fun q => ((pk.1, pv.1) :: q.1, q.2))))

end

/-- Count-prefixed encoding of a context. -/
def encCtx (c : Ctx) : List Nat := c.length :: encEntryList c

/-- Decode a count-prefixed context. -/
def decodeCtx (fuel : Nat) (input : List Nat) : Option (Ctx × List Nat) :=
  match input with
  | [] => none
  | n :: rest => decodeEntryList fuel n rest

/-- Encoding of an optional string (0 = absent, 1 = present). -/
def encOptStr : Option String → List Nat
  | none => [0]
  | some s => 1 :: encString s

/-- Decode an optional string. -/
def decodeOptStr (input : List Nat) : Option (Option String × List Nat) :=
  match input with
  | 0 :: rest => some (none, rest)
  | 1 :: rest => (decodeString rest).map (fun p => (some p.1, p.2))
  | _ => none

/-- Encoding of one frame: view reference, context, return handler
reference, return context. -/
def encFrame (f : Frame) : List Nat :=
  encString f.view_reference ++ encCtx f.context ++
  encOptStr f.return_handler_reference ++ encCtx f.return_context

/-- Decode one frame. -/
def decodeFrame (fuel : Nat) (input : List Nat) : Option (Frame × List Nat) :=
  (decodeString input).bind (fun pv =>
    (decodeCtx fuel pv.2).bind (fun pc =>
      (decodeOptStr pc.2).bind (fun ph =>
        (decodeCtx fuel ph.2).map (fun pr =>
          (⟨pv.1, pc.1, ph.1, pr.1⟩, pr.2)))))

/-- Concatenated encoding of the frames of a stack. -/
def encFrames : List Frame → List Nat
  | [] => []
  | f :: fs => encFrame f ++ encFrames fs

/-- Decode `n` frames. -/
def decodeFrames (fuel : Nat) : Nat → List Nat → Option (List Frame × List Nat)
  | 0, input => some ([], input)
  | n + 1, input =>
    (decodeFrame fuel input).bind (fun p =>
      (decodeFrames fuel n p.2).map (fun q => (p.1 :: q.1, q.2)))

/-- Modelled from the spec: `encode(stack: Sequence<Frame>) -> bytes`
(spec section 4.1).  The frame count followed by each frame's
encoding. -/
def encode (stack : List Frame) : List Nat :=
  stack.length :: encFrames stack

/-- Modelled from the spec: decode "fails with CodecError on malformed
input" (spec section 4.1). -/
inductive CodecError where
  | codecError

/-- Modelled from the spec: `decode(bytes) -> Sequence<Frame>`, failing
with `CodecError` on malformed input (spec section 4.1).  The decoding
fuel is derived from the input length, which bounds the nesting depth of
anything the input can encode. -/
def decode (bytes : List Nat) : Except CodecError (List Frame) :=
  match bytes with
  | [] => .error .codecError
  | n :: rest =>
    match decodeFrames (bytes.length + 1) n rest with
    | some (fs, []) => .ok fs
    | _ => .error .codecError

/-! ### Signer

Modelled from the spec (section 4.2): `seal(bytes, key) -> SignedEnvelope`,
`open(SignedEnvelope, key) -> bytes | fails(SignatureError)`. -/

/-- Modelled from the spec: a Signed Envelope is
`{payload: bytes, authentication_tag: bytes}` (spec section 3). -/
structure SignedEnvelope where
  payload : List Nat
  tag : List Nat

/-- Modelled from the spec: "SignatureError (tamper or wrong/expired
key...)" (spec section 7). -/
inductive SignatureError where
  | signatureError

/-- Modelled from the spec: the keyed message authentication code over
the payload.  The spec's envelope invariant ("any payload byte change
invalidates it", section 3) idealizes the MAC as collision-free, so the
MAC is modelled as an injective keyed encoding of the payload (the
Python original used HMAC-SHA1). -/
def mac (key payload : List Nat) : List Nat :=
  key.length :: (key ++ payload)

/-- Modelled from the spec: the sealing operation wraps the payload with the keyed
authentication tag. -/
def sealEnvelope (payload key : List Nat) : SignedEnvelope :=
  ⟨payload, mac key payload⟩

/-- Modelled from the spec: `open` recomputes the tag over the stored
payload and fails closed with `SignatureError` on any mismatch. -/
def openEnvelope (e : SignedEnvelope) (key : List Nat) :
    Except SignatureError (List Nat) :=
  if mac key e.payload = e.tag then .ok e.payload else .error .signatureError

/-- Flip bit `j` of byte `i` of a byte string (out-of-range `i` leaves
the string unchanged). -/
def flipBit (bytes : List Nat) (i j : Nat) : List Nat :=
  bytes.set i (bytes.getD i 0 ^^^ 2 ^ j)

/-! ### Navigation engine

Modelled from the spec (section 4.4): states are call stacks (top of
stack at the head), transitions are the dispatch primitives.  Return
handlers are stable string identifiers resolved through a registry
(spec design note: "model views and actions as pure functions/closures
referenced by stable string or enum identifiers resolved through a
registry"); a registry maps a handler identifier, the returned value and
the saved return context to a transformation of the new top frame's
context. -/
def HandlerReg := String → Value → Ctx → Ctx → Ctx

/-- Modelled from the spec: "EmptyStackError (return() on a single-frame
stack...)" (spec section 7). -/
inductive EngineError where
  | emptyStackError

/-- A record that a return handler ran: which handler, with which
returned value and which saved return context (spec section 4.4,
`return(value)`). -/
structure Invocation where
  handler : String
  value : Value
  return_context : Ctx

/-- Modelled from the spec: `call(view_reference, context,
return_handler_reference, return_context)` pushes a new Frame on top
(spec section 4.4). -/
def do_call (stack : List Frame) (view : String) (ctx : Ctx)
    (rh : Option String) (rctx : Ctx) : List Frame :=
  ⟨view, ctx, rh, rctx⟩ :: stack

/-- Modelled from the spec: `return(value)` pops the top Frame (failing
with `EmptyStackError` if the stack would become empty) and invokes the
popped Frame's `return_handler_reference` against the new top Frame,
passing the value and the popped Frame's `return_context`; the handler
may mutate the new top context (spec section 4.4).  Returns the
resulting stack together with the list of handler invocations that
ran. -/
def do_return (reg : HandlerReg) (v : Value) :
    List Frame → Except EngineError (List Frame × List Invocation)
  | [] => .error .emptyStackError
  | [_] => .error .emptyStackError
  | popped :: top :: rest =>
    match popped.return_handler_reference with
    | some h =>
      .ok ({ top with context := reg h v popped.return_context top.context } :: rest,
           [⟨h, v, popped.return_context⟩])
    | none => .ok (top :: rest, [])

/-! ### Transport backends and size fallback

Modelled from the spec (section 4.3): "Backend choice is a pure function
of (size, configuration): always Database if configured; else GET unless
over threshold, else POST." -/

/-- The three transport backends (spec section 4.3). -/
inductive Backend where
  | get
  | post
  | database

/-- Modelled from the spec: the configuration surface relevant to
backend choice — whether a Database backend is configured, and the GET
size threshold (default ~2000) (spec sections 4.3 and 6). -/
structure EdwaConfig where
  database_configured : Bool
  get_threshold : Nat

/-- Modelled from the spec: backend choice as a pure function of
(size, configuration). -/
def chooseBackend (cfg : EdwaConfig) (size : Nat) : Backend :=
  if cfg.database_configured then .database
  else if size > cfg.get_threshold then .post
  else .get

/-- Modelled from the spec: publishing an envelope through the size
governor.  The backend is chosen from the envelope's encoded length; for
GET and POST the token carries the entire envelope (base64url is a
bijection on byte strings and is elided), so nothing is truncated. -/
def publishEnvelope (cfg : EdwaConfig) (envelope : List Nat) :
    Backend × List Nat :=
  (chooseBackend cfg envelope.length, envelope)

/-- Modelled from the spec: resolving a GET/POST token recovers the
envelope it carries. -/
def resolveToken (token : List Nat) : List Nat := token

/-- Nesting depth of the contexts stored in a frame. -/
def frameDepth (f : Frame) : Nat :=
  max (depthEntries f.context) (depthEntries f.return_context)

/-- Nesting depth of the contexts stored in a stack. -/
def framesDepth : List Frame → Nat
  | [] => 0
  | f :: fs => max (frameDepth f) (framesDepth fs)

end Edwa

/-! ## Theorems -/

namespace Edwa

/-- C3: Starting from a one-frame stack [A], dispatching
`call(B, ctx, A.on_return, rctx)` followed by `return(v)` yields a stack
whose only (top) frame is A's frame — same view reference, return
handler reference and return context, with A's context transformed by
the handler — and A's `on_return` handler is invoked exactly once, with
arguments `(v, rctx)`, against the new top frame. -/
theorem call_return_pairing (reg : HandlerReg) (A : Frame) (B : String)
    (ctx rctx : Ctx) (on_return : String) (v : Value) :
    do_return reg v (do_call [A] B ctx (some on_return) rctx) =
      .ok ([{ A with context := reg on_return v rctx A.context }],
           [⟨on_return, v, rctx⟩]) := rfl

/-- C4: `return(value)` on a one-frame stack fails with `EmptyStackError`;
on a stack of two or more frames it pops the top frame and invokes the
popped frame's return handler reference against the new top frame,
passing the value and the popped frame's return context (and invokes
nothing when the popped frame recorded no handler). -/
theorem return_pop_semantics (reg : HandlerReg) (v : Value) :
    (∀ f : Frame, do_return reg v [f] = .error .emptyStackError) ∧
    (∀ (p t : Frame) (rest : List Frame) (h : String),
      p.return_handler_reference = some h →
      do_return reg v (p :: t :: rest) =
        .ok ({ t with context := reg h v p.return_context t.context } :: rest,
             [⟨h, v, p.return_context⟩])) ∧
    (∀ (p t : Frame) (rest : List Frame),
      p.return_handler_reference = none →
      do_return reg v (p :: t :: rest) = .ok (t :: rest, [])) := by
  refine ⟨fun f => rfl, fun p t rest h hh => ?_, fun p t rest hn => ?_⟩
  · simp [do_return, hh]
  · simp [do_return, hn]

/-- Witness for C4 at a concrete two-frame stack with an identity
handler registry. -/
theorem return_pop_semantics_witness :
    do_return (fun _ _ _ c => c) (.bool true)
        [⟨"sub", [], some "on_return", []⟩, ⟨"main", [], none, []⟩] =
      .ok ([⟨"main", [], none, []⟩], [⟨"on_return", .bool true, []⟩]) :=
  (return_pop_semantics (fun _ _ _ c => c) (.bool true)).2.1
    ⟨"sub", [], some "on_return", []⟩ ⟨"main", [], none, []⟩ [] "on_return" rfl

/-- C5: Backend selection is a pure function of encoded size and
configuration: Database whenever configured; otherwise POST exactly when
the encoded length exceeds the GET threshold, GET otherwise; and for
GET/POST the published token carries the whole envelope, so resolving it
recovers the envelope unchanged (nothing is truncated). -/
theorem backend_size_fallback (cfg : EdwaConfig) (env : List Nat) :
    (cfg.database_configured = true → (publishEnvelope cfg env).1 = .database) ∧
    (cfg.database_configured = false → env.length > cfg.get_threshold →
      publishEnvelope cfg env = (.post, env)) ∧
    (cfg.database_configured = false → env.length ≤ cfg.get_threshold →
      publishEnvelope cfg env = (.get, env)) ∧
    resolveToken (publishEnvelope cfg env).2 = env := by
  refine ⟨fun hdb => ?_, fun hdb hgt => ?_, fun hdb hle => ?_, rfl⟩ <;>
    simp [publishEnvelope, chooseBackend, resolveToken, hdb] <;> omega

/-- Witness for C5: a 2500-byte envelope against a 2000-byte GET
threshold with no Database backend publishes via POST. -/
theorem backend_size_fallback_witness :
    publishEnvelope ⟨false, 2000⟩ (List.replicate 2500 0) =
      (.post, List.replicate 2500 0) :=
  (backend_size_fallback ⟨false, 2000⟩ (List.replicate 2500 0)).2.1 rfl
    (by rw [List.length_replicate]; decide)

end Edwa

namespace Edwa

/-- Xor-ing a natural number with a nonzero mask changes it. -/
theorem xor_pow_ne (a j : Nat) : a ^^^ 2 ^ j ≠ a := by
  intro h
  have h2 : 2 ^ j = 0 := by
    calc 2 ^ j = a ^^^ (a ^^^ 2 ^ j) := by
          rw [← Nat.xor_assoc, Nat.xor_self, Nat.zero_xor]
    _ = a ^^^ a := by rw [h]
    _ = 0 := Nat.xor_self a
  exact absurd h2 (Nat.pos_iff_ne_zero.mp (Nat.two_pow_pos j))

/-- Flipping a bit of an in-range byte changes the byte string. -/
theorem flipBit_ne (bytes : List Nat) (i j : Nat) (h : i < bytes.length) :
    flipBit bytes i j ≠ bytes := by
  intro heq
  have h2 : (flipBit bytes i j).getD i 0 = bytes.getD i 0 ^^^ 2 ^ j := by
    rw [flipBit, List.getD_eq_getElem _ _ (by simpa using h),
      List.getElem_set_self _]
  rw [heq] at h2
  exact xor_pow_ne (bytes.getD i 0) j h2.symm

/-- The modelled MAC is injective in the payload for a fixed key. -/
theorem mac_inj (key p q : List Nat) (h : mac key p = mac key q) : p = q := by
  simp only [mac, List.cons.injEq] at h
  exact List.append_cancel_left h.2

/-- C2: any single-bit flip in the payload or the authentication tag of a
sealed envelope makes `open` fail with `SignatureError`, and `open`
succeeds (returning the payload) exactly when the recomputed tag over
the payload matches the stored tag. -/
theorem tamper_rejection (key p : List Nat) (i j : Nat) :
    (i < p.length →
      openEnvelope ⟨flipBit p i j, (sealEnvelope p key).tag⟩ key =
        .error .signatureError) ∧
    (i < (sealEnvelope p key).tag.length →
      openEnvelope ⟨p, flipBit (sealEnvelope p key).tag i j⟩ key =
        .error .signatureError) ∧
    (∀ (e : SignedEnvelope) (x : List Nat),
      openEnvelope e key = .ok x ↔ (mac key e.payload = e.tag ∧ x = e.payload)) := by
  refine ⟨fun hi => ?_, fun hi => ?_, fun e x => ?_⟩
  · rw [openEnvelope]
    rw [if_neg]
    intro hmac
    exact flipBit_ne p i j hi (mac_inj key _ p hmac)
  · rw [openEnvelope]
    rw [if_neg]
    intro hmac
    exact flipBit_ne (sealEnvelope p key).tag i j hi hmac.symm
  · rw [openEnvelope]
    by_cases hmac : mac key e.payload = e.tag
    · simp [hmac, eq_comm]
    · simp [hmac]

/-- Witness for C2: flipping bit 0 of byte 0 of the payload `[0, 3]`
sealed under key `[1]` is rejected. -/
theorem tamper_rejection_witness :
    openEnvelope ⟨flipBit [0, 3] 0 0, (sealEnvelope [0, 3] [1]).tag⟩ [1] =
      .error .signatureError :=
  (tamper_rejection [1] [0, 3] 0 0).1 (by decide)

end Edwa

namespace Edwa

/-- Decoding inverts the length-prefixed string encoding. -/
theorem decodeString_enc (s : String) (rest : List Nat) :
    decodeString (encString s ++ rest) = some (s, rest) := by
  have hlen : s.length = (List.map Char.toNat s.data).length := by
    rw [List.length_map]
    exact rfl
  simp only [encString, List.cons_append, decodeString]
  rw [if_pos (by rw [hlen]; simp)]
  rw [hlen, List.take_left, List.drop_left, List.map_map]
  have hmap : List.map (Char.ofNat ∘ Char.toNat) s.data = s.data := by
    induction s.data with
    | nil => rfl
    | cons c cs ih => simp only [List.map_cons, Function.comp_apply,
        Char.ofNat_toNat, ih]
  rw [hmap]

mutual

/-- Decoding inverts the value encoding, given fuel above the value's
nesting depth. -/
theorem decodeValue_enc : ∀ (fuel : Nat) (v : Value) (rest : List Nat),
    depthV v < fuel → decodeValue fuel (encValue v ++ rest) = some (v, rest)
  | _ + 1, .num i, rest, _ => by
    by_cases hi : i < 0 <;>
      simp [encValue, decodeValue, hi, -Int.natCast_natAbs] <;> omega
  | _ + 1, .str s, rest, _ => by
    simp [encValue, decodeValue, decodeString_enc]
  | _ + 1, .bool b, rest, _ => by
    cases b <;> simp [encValue, decodeValue]
  | fuel + 1, .seq xs, rest, h => by
    have hl : depthVList xs < fuel := by
      simp only [depthV] at h; omega
    simp [encValue, decodeValue, decodeValueList_enc fuel xs rest hl]
  | fuel + 1, .map kvs, rest, h => by
    have hl : depthEntries kvs < fuel := by
      simp only [depthV] at h; omega
    simp [encValue, decodeValue, decodeEntryList_enc fuel kvs rest hl]

/-- Decoding inverts the concatenated encoding of a value list. -/
theorem decodeValueList_enc : ∀ (fuel : Nat) (xs : List Value) (rest : List Nat),
    depthVList xs < fuel →
    decodeValueList fuel xs.length (encValueList xs ++ rest) = some (xs, rest)
  | _, [], rest, _ => by simp [encValueList, decodeValueList]
  | fuel, v :: vs, rest, h => by
    have hv : depthV v < fuel :=
      lt_of_le_of_lt (le_max_left _ _) (by simpa [depthVList] using h)
    have hvs : depthVList vs < fuel :=
      lt_of_le_of_lt (le_max_right _ _) (by simpa [depthVList] using h)
    simp only [encValueList, List.append_assoc, List.length_cons, decodeValueList]
    rw [decodeValue_enc fuel v (encValueList vs ++ rest) hv]
    simp [decodeValueList_enc fuel vs rest hvs]

/-- Decoding inverts the concatenated encoding of a key/value entry
list. -/
theorem decodeEntryList_enc : ∀ (fuel : Nat) (kvs : List (String × Value)) (rest : List Nat),
    depthEntries kvs < fuel →
    decodeEntryList fuel kvs.length (encEntryList kvs ++ rest) = some (kvs, rest)
  | _, [], rest, _ => by simp [encEntryList, decodeEntryList]
  | fuel, (k, v) :: kvs, rest, h => by
    have hv : depthV v < fuel :=
      lt_of_le_of_lt (le_max_left _ _) (by simpa [depthEntries] using h)
    have hkvs : depthEntries kvs < fuel :=
      lt_of_le_of_lt (le_max_right _ _) (by simpa [depthEntries] using h)
    simp only [encEntryList, List.append_assoc, List.length_cons, decodeEntryList]
    rw [decodeString_enc k (encValue v ++ (encEntryList kvs ++ rest))]
    simp [decodeValue_enc fuel v (encEntryList kvs ++ rest) hv,
      decodeEntryList_enc fuel kvs rest hkvs]

end

end Edwa

namespace Edwa

mutual

/-- A value's nesting depth is bounded by the length of its encoding. -/
theorem depthV_le_encLen : ∀ v : Value, depthV v ≤ (encValue v).length
  | .num _ => by simp [depthV, encValue]
  | .str _ => by simp [depthV, encValue]
  | .bool _ => by simp [depthV, encValue]
  | .seq xs => by
    have h := depthVList_le_encLen xs
    simp only [depthV, encValue, List.length_cons]
    omega
  | .map kvs => by
    have h := depthEntries_le_encLen kvs
    simp only [depthV, encValue, List.length_cons]
    omega

theorem depthVList_le_encLen : ∀ xs : List Value, depthVList xs ≤ (encValueList xs).length
  | [] => by simp [depthVList, encValueList]
  | v :: vs => by
    have h1 := depthV_le_encLen v
    have h2 := depthVList_le_encLen vs
    simp only [depthVList, encValueList, List.length_append]
    omega

theorem depthEntries_le_encLen : ∀ kvs : List (String × Value),
    depthEntries kvs ≤ (encEntryList kvs).length
  | [] => by simp [depthEntries, encEntryList]
  | (k, v) :: rest => by
    have h1 := depthV_le_encLen v
    have h2 := depthEntries_le_encLen rest
    simp only [depthEntries, encEntryList, List.length_append]
    omega

end

/-- A frame's context depth is bounded by the length of its encoding. -/
theorem frameDepth_le_encLen (f : Frame) : frameDepth f ≤ (encFrame f).length := by
  have h1 := depthEntries_le_encLen f.context
  have h2 := depthEntries_le_encLen f.return_context
  simp only [frameDepth, encFrame, encCtx, List.length_append, List.length_cons]
  omega

/-- A stack's context depth is bounded by the length of its encoding. -/
theorem framesDepth_le_encLen (fs : List Frame) :
    framesDepth fs ≤ (encFrames fs).length := by
  induction fs with
  | nil => simp [framesDepth, encFrames]
  | cons f fs ih =>
    have h1 := frameDepth_le_encLen f
    simp only [framesDepth, encFrames, List.length_append]
    omega

/-- Decoding inverts the context encoding. -/
theorem decodeCtx_enc (fuel : Nat) (c : Ctx) (rest : List Nat)
    (h : depthEntries c < fuel) :
    decodeCtx fuel (encCtx c ++ rest) = some (c, rest) := by
  simp [encCtx, decodeCtx, decodeEntryList_enc fuel c rest h]

/-- Decoding inverts the optional-string encoding. -/
theorem decodeOptStr_enc (o : Option String) (rest : List Nat) :
    decodeOptStr (encOptStr o ++ rest) = some (o, rest) := by
  cases o <;> simp [encOptStr, decodeOptStr, decodeString_enc]

/-- Decoding inverts the frame encoding, given fuel above the frame's
context depth. -/
theorem decodeFrame_enc (fuel : Nat) (f : Frame) (rest : List Nat)
    (h : frameDepth f < fuel) :
    decodeFrame fuel (encFrame f ++ rest) = some (f, rest) := by
  have hc : depthEntries f.context < fuel :=
    lt_of_le_of_lt (le_max_left _ _) h
  have hr : depthEntries f.return_context < fuel :=
    lt_of_le_of_lt (le_max_right _ _) h
  simp only [encFrame, List.append_assoc, decodeFrame]
  rw [decodeString_enc]
  simp only [Option.bind_eq_bind, Option.some_bind]
  rw [decodeCtx_enc fuel f.context _ hc]
  simp only [Option.some_bind]
  rw [decodeOptStr_enc]
  simp only [Option.some_bind]
  rw [decodeCtx_enc fuel f.return_context rest hr]
  simp

/-- Decoding inverts the concatenated frame encoding, given fuel above
the stack's context depth. -/
theorem decodeFrames_enc (fuel : Nat) (fs : List Frame) (rest : List Nat)
    (h : framesDepth fs < fuel) :
    decodeFrames fuel fs.length (encFrames fs ++ rest) = some (fs, rest) := by
  induction fs generalizing rest with
  | nil => simp [encFrames, decodeFrames]
  | cons f fs ih =>
    have hf : frameDepth f < fuel :=
      lt_of_le_of_lt (le_max_left _ _) (by simpa [framesDepth] using h)
    have hfs : framesDepth fs < fuel :=
      lt_of_le_of_lt (le_max_right _ _) (by simpa [framesDepth] using h)
    simp only [encFrames, List.append_assoc, List.length_cons, decodeFrames]
    rw [decodeFrame_enc fuel f _ hf]
    simp [ih _ hfs]

/-- C1: for every representable Call Stack (frames whose contexts hold
numbers, strings, booleans and nested mappings/sequences of the same —
exactly the `Value` type), decoding the encoding yields the same stack:
`decode (encode S) = S`. -/
theorem decode_encode (S : List Frame) : decode (encode S) = .ok S := by
  have hd : framesDepth S < (S.length :: encFrames S).length + 1 := by
    have h1 := framesDepth_le_encLen S
    simp only [List.length_cons]
    omega
  have hdf : decodeFrames ((S.length :: encFrames S).length + 1) S.length
      (encFrames S) = some (S, []) := by
    have h2 := decodeFrames_enc ((S.length :: encFrames S).length + 1) S [] hd
    simpa using h2
  show decode (S.length :: encFrames S) = .ok S
  simp only [decode]
  rw [hdf]

end Edwa

namespace JsonForms

/-- Writing a key makes it readable. -/
theorem lookup_jset_self (d : JDict) (k : String) (v : JVal) :
    (jset d k v).lookup k = some v := by
  induction d with
  | nil => simp [jset, List.lookup]
  | cons kv rest ih =>
    obtain ⟨k', v'⟩ := kv
    by_cases h : k' = k
    · simp [jset, h, List.lookup]
    · simp only [jset]
      rw [if_neg (by simp [h])]
      simp only [List.lookup]
      rw [beq_false_of_ne (fun he => h he.symm)]
      exact ih

/-- Writing one key leaves the others unchanged. -/
theorem lookup_jset_ne (d : JDict) (k k' : String) (v : JVal) (h : k' ≠ k) :
    (jset d k v).lookup k' = d.lookup k' := by
  induction d with
  | nil =>
    simp only [jset, List.lookup]
    rw [beq_false_of_ne h]
  | cons kv rest ih =>
    obtain ⟨k0, v0⟩ := kv
    by_cases h0 : k0 = k
    · subst h0
      simp only [jset]
      rw [if_pos (by simp)]
      simp only [List.lookup]
      rw [beq_false_of_ne h]
    · simp only [jset]
      rw [if_neg (by simp [h0])]
      simp only [List.lookup]
      by_cases h1 : k' = k0
      · rw [beq_iff_eq.mpr h1]
      · rw [beq_false_of_ne h1]
        exact ih

/-- `jget` after writing the same key. -/
theorem jget_jset_self (d : JDict) (k : String) (v : JVal) :
    jget (jset d k v) k = v := by
  simp [jget, lookup_jset_self]

/-- `jget` after writing a different key. -/
theorem jget_jset_ne (d : JDict) (k k' : String) (v : JVal) (h : k' ≠ k) :
    jget (jset d k v) k' = jget d k' := by
  simp [jget, lookup_jset_ne d k k' v h]

/-- The written binding is in the dictionary. -/
theorem mem_jset_self (d : JDict) (k : String) (v : JVal) :
    (k, v) ∈ jset d k v := by
  induction d with
  | nil => simp [jset]
  | cons kv rest ih =>
    obtain ⟨k0, v0⟩ := kv
    by_cases h0 : k0 = k
    · simp [jset, h0]
    · simp only [jset]
      rw [if_neg (by simpa using h0)]
      simp [ih]

/-- Bindings of other keys survive a write. -/
theorem mem_jset_of_ne (d : JDict) (k k' : String) (v w : JVal)
    (h : k ≠ k') (hmem : (k, v) ∈ d) : (k, v) ∈ jset d k' w := by
  induction d with
  | nil => simp at hmem
  | cons kv rest ih =>
    obtain ⟨k0, v0⟩ := kv
    by_cases h0 : k0 = k'
    · subst h0
      rcases List.mem_cons.mp hmem with heq | hrest
      · exact absurd (congrArg Prod.fst heq) (by simpa using h)
      · simp only [jset]
        rw [if_pos (by simp)]
        exact List.mem_cons_of_mem _ hrest
    · simp only [jset]
      rw [if_neg (by simpa using h0)]
      rcases List.mem_cons.mp hmem with heq | hrest
      · exact heq ▸ List.mem_cons_self _ _
      · exact List.mem_cons_of_mem _ (ih hrest)

/-- The key list after a write: unchanged if the key was present, else
the key is appended. -/
theorem map_fst_jset (d : JDict) (k : String) (v : JVal) :
    (jset d k v).map Prod.fst = d.map Prod.fst ∨
    (jset d k v).map Prod.fst = d.map Prod.fst ++ [k] := by
  induction d with
  | nil => simp [jset]
  | cons kv rest ih =>
    obtain ⟨k0, v0⟩ := kv
    by_cases h0 : k0 = k
    · subst h0
      left
      simp only [jset]
      rw [if_pos (by simp)]
      simp
    · simp only [jset]
      rw [if_neg (by simpa using h0)]
      rcases ih with h | h
      · left
        simp [h]
      · right
        simp [h]

/-- A write preserves distinctness of keys. -/
theorem nodup_keys_jset (d : JDict) (k : String) (v : JVal)
    (h : (d.map Prod.fst).Nodup) : ((jset d k v).map Prod.fst).Nodup := by
  induction d with
  | nil => simp [jset]
  | cons kv rest ih =>
    obtain ⟨k0, v0⟩ := kv
    simp only [List.map_cons, List.nodup_cons] at h
    by_cases h0 : k0 = k
    · subst h0
      simp only [jset]
      rw [if_pos (by simp)]
      simpa using h
    · simp only [jset]
      rw [if_neg (by simpa using h0)]
      simp only [List.map_cons, List.nodup_cons]
      refine ⟨?_, ih h.2⟩
      rcases map_fst_jset rest k v with hk | hk
      · rw [hk]; exact h.1
      · rw [hk]
        simp only [List.mem_append, List.mem_singleton]
        rintro (hmem | rfl)
        · exact h.1 hmem
        · exact h0 rfl

end JsonForms

namespace JsonForms

/-- Unfolding one step of `$.extend`. -/
theorem jExtend_cons (t : JDict) (k0 : String) (v0 : JVal) (src : JDict) :
    jExtend t ((k0, v0) :: src) =
      jExtend (match v0 with | .undef => t | v => jset t k0 v) src := rfl

/-- `$.extend` does not touch keys absent from the source. -/
theorem jget_jExtend_not_mem (t src : JDict) (k : String)
    (h : k ∉ src.map Prod.fst) : jget (jExtend t src) k = jget t k := by
  induction src generalizing t with
  | nil => rfl
  | cons kv rest ih =>
    obtain ⟨k0, v0⟩ := kv
    simp only [List.map_cons, List.mem_cons, not_or] at h
    rw [jExtend_cons, ih _ h.2]
    cases v0 with
    | undef => rfl
    | null => exact jget_jset_ne t k0 k _ h.1
    | bool b => exact jget_jset_ne t k0 k _ h.1
    | num n => exact jget_jset_ne t k0 k _ h.1
    | str s => exact jget_jset_ne t k0 k _ h.1
    | arr xs => exact jget_jset_ne t k0 k _ h.1
    | obj fs => exact jget_jset_ne t k0 k _ h.1

/-- After `$.extend`, a key carried by the (dup-free) source has the
source's value, unless that value was `undefined`. -/
theorem jget_jExtend_of_mem (t src : JDict) (k : String) (v : JVal)
    (hnd : (src.map Prod.fst).Nodup) (hmem : (k, v) ∈ src)
    (hv : v ≠ .undef) : jget (jExtend t src) k = v := by
  induction src generalizing t with
  | nil => simp at hmem
  | cons kv rest ih =>
    obtain ⟨k0, v0⟩ := kv
    simp only [List.map_cons, List.nodup_cons] at hnd
    rcases List.mem_cons.mp hmem with heq | hrest
    · cases heq
      rw [jExtend_cons, jget_jExtend_not_mem _ _ _ hnd.1]
      cases v with
      | undef => exact absurd rfl hv
      | null => exact jget_jset_self t k _
      | bool b => exact jget_jset_self t k _
      | num n => exact jget_jset_self t k _
      | str s => exact jget_jset_self t k _
      | arr xs => exact jget_jset_self t k _
      | obj fs => exact jget_jset_self t k _
    · rw [jExtend_cons]
      exact ih _ hnd.2 hrest

/-- Every table built by the item loop carries the `allow_remove` flag it
was given. -/
theorem runItems_removable (tpl : List FieldSpec) (rm : Bool)
    (items : List JVal) (nid : Nat) :
    ∀ t ∈ (runItems tpl rm items nid).2.1, t.removable = rm := by
  induction items generalizing nid with
  | nil => simp [runItems]
  | cons item rest ih =>
    simp only [runItems]
    cases runTemplate tpl item nid with
    | none => simp
    | some p =>
      simp only [List.mem_cons]
      rintro t (rfl | hmem)
      · rfl
      · exact ih p.2.2 t hmem

/-- The context effect of a `make_input` handler does not depend on the
id counter. -/
theorem make_input_data_counter_indep (name lt ht : String) (inp : InputElem)
    (d : JDict) (n₁ n₂ : Nat) :
    (make_input_run name lt ht inp d n₁).data =
      (make_input_run name lt ht inp d n₂).data := by
  by_cases hp : (d.lookup name).isSome = true <;>
    by_cases hs : inp.type.startsWith "select" = true <;>
      by_cases hc : (inp.type == "checkbox" || inp.type == "radio") = true <;>
        simp [make_input_run, hp, hs, hc]

/-- The item effect of running a template does not depend on the id
counter, nor does whether the run throws. -/
theorem runTemplate_data_counter_indep (tpl : List FieldSpec) (item : JVal)
    (n₁ n₂ : Nat) :
    Option.map (fun r => r.2.1) (runTemplate tpl item n₁) =
      Option.map (fun r => r.2.1) (runTemplate tpl item n₂) := by
  induction tpl generalizing item n₁ n₂ with
  | nil => rfl
  | cons f fs ih =>
    cases item with
    | obj dict =>
      have hdata : (make_input_run f.name f.label_text f.help_text f.input dict n₁).data =
          (make_input_run f.name f.label_text f.help_text f.input dict n₂).data :=
        make_input_data_counter_indep _ _ _ _ _ _ _
      simp only [runTemplate, Option.map_map, Function.comp]
      rw [hdata]
      exact ih _ _ _
    | null => rfl
    | undef => rfl
    | bool b => rfl
    | num n => rfl
    | str s => rfl
    | arr xs => rfl

end JsonForms

namespace JsonForms

/-- The item effects and the thrown-or-not outcome of the item loop do
not depend on the id counter. -/
theorem runItems_data_counter_indep (tpl : List FieldSpec) (rm : Bool)
    (items : List JVal) (n₁ n₂ : Nat) :
    (runItems tpl rm items n₁).1 = (runItems tpl rm items n₂).1 ∧
    (runItems tpl rm items n₁).2.2.2 = (runItems tpl rm items n₂).2.2.2 := by
  induction items generalizing n₁ n₂ with
  | nil => exact ⟨rfl, rfl⟩
  | cons item rest ih =>
    have hmap := runTemplate_data_counter_indep tpl item n₁ n₂
    cases h₁ : runTemplate tpl item n₁ with
    | none =>
      cases h₂ : runTemplate tpl item n₂ with
      | none => simp [runItems, h₁, h₂]
      | some q => rw [h₁, h₂] at hmap; simp at hmap
    | some p =>
      cases h₂ : runTemplate tpl item n₂ with
      | none => rw [h₁, h₂] at hmap; simp at hmap
      | some q =>
        rw [h₁, h₂] at hmap
        simp only [Option.map_some', Option.some.injEq] at hmap
        obtain ⟨hi, hok⟩ := ih p.2.2 q.2.2
        simp only [runItems, h₁, h₂]
        exact ⟨by rw [hmap, hi], hok⟩

/-- The context effect of a `makeNestedForm` handler does not depend on
the id counter. -/
theorem makeNestedForm_data_counter_indep (name lbl : String)
    (tpl : List FieldSpec) (ex d : JDict) (n₁ n₂ : Nat) :
    (makeNestedForm_run name lbl tpl ex d n₁).all_data =
      (makeNestedForm_run name lbl tpl ex d n₂).all_data := by
  simp only [makeNestedForm_run]
  rw [(runItems_data_counter_indep tpl _ _ n₁ n₂).1]

end JsonForms

namespace JsonForms

/-- C6 (amended): the form-generation handlers are pure functions of the
context dict and the module-level `next_id` counter: two invocations on
equal context dicts with equal counter values produce identical markup
and identical updated contexts, and the updated context does not depend
on the counter at all — only the generated element ids (and hence the
markup) do. -/
theorem form_gen_counter_purity (name lt ht lbl : String) (inp : InputElem)
    (tpl : List FieldSpec) (ex d : JDict) (n₁ n₂ : Nat) :
    (make_input_run name lt ht inp d n₁).data =
      (make_input_run name lt ht inp d n₂).data ∧
    (makeNestedForm_run name lbl tpl ex d n₁).all_data =
      (makeNestedForm_run name lbl tpl ex d n₂).all_data ∧
    (n₁ = n₂ →
      make_input_run name lt ht inp d n₁ = make_input_run name lt ht inp d n₂ ∧
      makeNestedForm_run name lbl tpl ex d n₁ = makeNestedForm_run name lbl tpl ex d n₂) :=
  ⟨make_input_data_counter_indep name lt ht inp d n₁ n₂,
   makeNestedForm_data_counter_indep name lbl tpl ex d n₁ n₂,
   fun h => h ▸ ⟨rfl, rfl⟩⟩

/-- Witness for C6 (amended) at concrete inputs: the context effect is
the same at counters 5 and 9, and runs with equal counters coincide. -/
theorem form_gen_counter_purity_witness :
    (make_input_run "a" "L" "" textInput [] 5).data =
      (make_input_run "a" "L" "" textInput [] 9).data ∧
    make_input_run "a" "L" "" textInput [] 7 =
      make_input_run "a" "L" "" textInput [] 7 :=
  ⟨(form_gen_counter_purity "a" "L" "" "M" textInput [] [] [] 5 9).1,
   ((form_gen_counter_purity "a" "L" "" "M" textInput [] [] [] 7 7).2.2 rfl).1⟩

/-- C6 (counterexample): two successive invocations of the same
`make_input` handler on equal (empty) context dicts render different
markup, because the second run draws a fresh element id from the
module-level counter the first run incremented. -/
theorem form_gen_purity_counterexample :
    (make_input_run "a" "L" "" textInput [] 10000).row.label_th ≠
      (make_input_run "a" "L" "" textInput []
        (make_input_run "a" "L" "" textInput [] 10000).next_id).row.label_th := by
  decide

end JsonForms

namespace JsonForms

/-- C7 (amended): the form-generation handlers mutate the context only
at their own field name: every binding at any other key is left
unchanged by both the `make_input` handler and the `makeNestedForm`
handler. -/
theorem render_mutates_only_own_key (name lt ht lbl k : String)
    (inp : InputElem) (tpl : List FieldSpec) (ex d : JDict) (n : Nat)
    (hk : k ≠ name) :
    ((make_input_run name lt ht inp d n).data).lookup k = d.lookup k ∧
    ((makeNestedForm_run name lbl tpl ex d n).all_data).lookup k = d.lookup k := by
  constructor
  · by_cases hp : (d.lookup name).isSome = true <;>
      by_cases hs : inp.type.startsWith "select" = true <;>
        by_cases hc : (inp.type == "checkbox" || inp.type == "radio") = true <;>
          simp [make_input_run, hp, hs, hc, lookup_jset_ne, hk]
  · by_cases hp : (d.lookup name).isSome = true <;>
      simp [makeNestedForm_run, hp, lookup_jset_ne, hk]

/-- Witness for C7 (amended): a binding at the key `b` survives runs of
handlers for the field `a`. -/
theorem render_mutates_only_own_key_witness :
    ((make_input_run "a" "L" "" textInput [("b", JVal.num 7)] 0).data).lookup "b" =
      ([("b", JVal.num 7)] : JDict).lookup "b" ∧
    ((makeNestedForm_run "a" "M" [] [] [("b", JVal.num 7)] 0).all_data).lookup "b" =
      ([("b", JVal.num 7)] : JDict).lookup "b" :=
  render_mutates_only_own_key "a" "L" "" "M" "b" textInput [] []
    [("b", JVal.num 7)] 0 (by decide)

/-- C7 (counterexample): rendering is not side-effect-free on the
context: a `make_input` handler for field `a` run on a context binding
`a` to the wrapped value `{value: "x"}` rewrites that binding to the
bare string `"x"`. -/
theorem render_side_effect_counterexample :
    jget [("a", JVal.obj [("value", JVal.str "x")])] "a" =
      JVal.obj [("value", JVal.str "x")] ∧
    jget (make_input_run "a" "L" "" textInput
      [("a", JVal.obj [("value", JVal.str "x")])] 0).data "a" = JVal.str "x" ∧
    JVal.str "x" ≠ JVal.obj [("value", JVal.str "x")] := by
  refine ⟨rfl, rfl, fun h => JVal.noConfusion h⟩

end JsonForms

namespace JsonForms

/-- C8 (amended): `get_value` and `get_errors` are total; on
non-plain-object inputs they act as identity and empty-default; on plain
objects `get_value` reads the `value` property and `get_errors` yields
the `errors` property when it is present and truthy, and `[]` otherwise
(so the result is a sequence whenever any present `errors` value is a
sequence). -/
theorem get_value_get_errors_amended :
    (∀ x : JVal, isPlainObject x = false →
      get_value x = x ∧ get_errors x = .arr []) ∧
    (∀ x : JVal, isPlainObject x = true →
      get_value x = jfield x "value" ∧
      (truthy (jfield x "errors") = true → get_errors x = jfield x "errors") ∧
      (truthy (jfield x "errors") = false → get_errors x = .arr [])) ∧
    (∀ (x : JVal) (l : List JVal), jfield x "errors" = .arr l →
      ∃ l', get_errors x = .arr l') := by
  refine ⟨fun x hx => ⟨by simp [get_value, hx], by simp [get_errors, hx]⟩,
    fun x hx => ⟨by simp [get_value, hx],
      fun ht => by simp [get_errors, hx, jsOr, ht],
      fun hf => by simp [get_errors, hx, jsOr, hf]⟩,
    fun x l hl => ?_⟩
  by_cases hx : isPlainObject x = true
  · exact ⟨l, by simp [get_errors, hx, hl, jsOr, truthy]⟩
  · have hx' : isPlainObject x = false := by simpa using hx
    exact ⟨[], by simp [get_errors, hx']⟩

end JsonForms

namespace JsonForms

/-- Witness for C8 (amended): unwrapped values pass through, and a
wrapped truthy errors array is returned as is. -/
theorem get_value_get_errors_amended_witness :
    (get_value (JVal.num 3) = JVal.num 3 ∧
      get_errors (JVal.num 3) = JVal.arr []) ∧
    get_errors (JVal.obj [("errors", JVal.arr [JVal.str "e"])]) =
      JVal.arr [JVal.str "e"] :=
  ⟨get_value_get_errors_amended.1 (JVal.num 3) rfl,
   (get_value_get_errors_amended.2.1
      (JVal.obj [("errors", JVal.arr [JVal.str "e"])]) rfl).2.1 (by decide)⟩

/-- C8 (counterexample): for the plain object `{errors: false}` the
`errors` property is present, yet `get_errors` returns `[]` rather than
that present value, because `x.errors || []` discards falsy values. -/
theorem get_errors_counterexample :
    isPlainObject (JVal.obj [("errors", JVal.bool false)]) = true ∧
    jfield (JVal.obj [("errors", JVal.bool false)]) "errors" = JVal.bool false ∧
    get_errors (JVal.obj [("errors", JVal.bool false)]) = JVal.arr [] ∧
    JVal.arr [] ≠ JVal.bool false :=
  ⟨rfl, rfl, rfl, fun h => JVal.noConfusion h⟩

/-- C9 (amended): after a `makeNestedForm(name, ...)` handler runs on
`all_data`, the value at `name` is `get_value(previous) || []` with the
items run through the template: the processed item list when the
previous value unwrapped to a list, and the empty sequence when `name`
was absent or its unwrapped value was falsy (null in particular).  (A
truthy non-list previous value is kept as is — see the
counterexample.) -/
theorem nested_form_data_list_amended (name lbl : String)
    (tpl : List FieldSpec) (ex d : JDict) (n : Nat) :
    (d.lookup name = none →
      jget (makeNestedForm_run name lbl tpl ex d n).all_data name = JVal.arr []) ∧
    (∀ v : JVal, d.lookup name = some v → truthy (get_value v) = false →
      jget (makeNestedForm_run name lbl tpl ex d n).all_data name = JVal.arr []) ∧
    (∀ (v : JVal) (l : List JVal), d.lookup name = some v →
      get_value v = JVal.arr l →
      jget (makeNestedForm_run name lbl tpl ex d n).all_data name =
        JVal.arr (runItems tpl
          (truthy (jget (jExtend nestedDefaults ex) "allow_remove")) l n).1) := by
  refine ⟨fun hnone => ?_, fun v hv hf => ?_, fun v l hv hl => ?_⟩
  · have hpres : (d.lookup name).isSome = false := by simp [hnone]
    simp [makeNestedForm_run, hpres, jget_jset_self, get_value, isPlainObject,
      jsOr, truthy, forInElems, runItems, rebuildList]
  · have hpres : (d.lookup name).isSome = true := by simp [hv]
    have hv0 : jget d name = v := by simp [jget, hv]
    simp [makeNestedForm_run, hpres, hv0, jsOr, hf, forInElems, runItems,
      rebuildList, jget_jset_self]
  · have hpres : (d.lookup name).isSome = true := by simp [hv]
    have hv0 : jget d name = v := by simp [jget, hv]
    simp [makeNestedForm_run, hpres, hv0, hl, jsOr, truthy, forInElems,
      rebuildList, jget_jset_self]

/-- Witness for C9 (amended): with `name` absent the handler leaves the
empty sequence behind. -/
theorem nested_form_data_list_amended_witness :
    jget (makeNestedForm_run "x" "M" [] [] [] 0).all_data "x" = JVal.arr [] :=
  (nested_form_data_list_amended "x" "M" [] [] [] 0).1 rfl

/-- C9 (counterexample): on a context binding `x` to the truthy
non-sequence `5`, the handler leaves `all_data.x = 5`, which is not a
sequence: `5 || []` keeps the `5`. -/
theorem nested_form_sequence_counterexample :
    jget (makeNestedForm_run "x" "L" [] [] [("x", JVal.num 5)] 0).all_data "x" =
      JVal.num 5 ∧
    isSeq (JVal.num 5) = false :=
  ⟨rfl, rfl⟩

end JsonForms

namespace JsonForms

/-- The `add_link` decision of a nested form reads the merged extras. -/
theorem makeNestedForm_add_link (name lbl : String) (tpl : List FieldSpec)
    (ex d : JDict) (n : Nat) :
    (makeNestedForm_run name lbl tpl ex d n).add_link =
      truthy (jget (jExtend nestedDefaults ex) "allow_add") := rfl

/-- The `_return_td` decision of a nested form reads the merged extras. -/
theorem makeNestedForm_is_td (name lbl : String) (tpl : List FieldSpec)
    (ex d : JDict) (n : Nat) :
    (makeNestedForm_run name lbl tpl ex d n).is_td =
      truthy (jget (jExtend nestedDefaults ex) "_return_td") := rfl

/-- Every table of a nested form is removable exactly per the merged
extras' `allow_remove`. -/
theorem makeNestedForm_removable (name lbl : String) (tpl : List FieldSpec)
    (ex d : JDict) (n : Nat) :
    ∀ t ∈ (makeNestedForm_run name lbl tpl ex d n).tables,
      t.removable = truthy (jget (jExtend nestedDefaults ex) "allow_remove") := by
  simp only [makeNestedForm_run]
  intro t ht
  exact runItems_removable _ _ _ _ t ht

/-- `make_jsonform` always hands the caller's extended extras object to
the nested form it builds. -/
theorem make_jsonform_extras_after (data0 : JVal) (tpl : List FieldSpec)
    (extras : JDict) (n : Nat) :
    (make_jsonform_run data0 tpl extras n).extras_after =
      jExtend extras jsonformOverrides := by
  simp only [make_jsonform_run]
  split <;> rfl

/-- The nested form built by `make_jsonform` (when the data did not make
`push` throw) is a `makeNestedForm` run under the extended extras. -/
theorem make_jsonform_nested_eq (data0 : JVal) (tpl : List FieldSpec)
    (extras : JDict) (n : Nat) :
    (make_jsonform_run data0 tpl extras n).nested = none ∨
    ∃ d' : JVal, (make_jsonform_run data0 tpl extras n).nested =
      some (makeNestedForm_run "x" "x" tpl (jExtend extras jsonformOverrides)
        [("x", d')] n) := by
  simp only [make_jsonform_run]
  split
  · exact Or.inl rfl
  · exact Or.inr ⟨_, rfl⟩
  · exact Or.inr ⟨_, rfl⟩

/-- C10: for every extras object passed to `make_jsonform`, the nested
form it builds has `allow_add` and `allow_remove` forced to false and
`_return_td` forced to true — no add link, no remove links, and the bare
`<td>` returned — regardless of what the caller set; and as a side
effect the caller's extras object itself now carries those three
values. -/
theorem make_jsonform_overrides (data0 : JVal) (tpl : List FieldSpec)
    (extras : JDict) (n : Nat) (hnd : (extras.map Prod.fst).Nodup) :
    (jget (make_jsonform_run data0 tpl extras n).extras_after "allow_add" =
        JVal.bool false ∧
      jget (make_jsonform_run data0 tpl extras n).extras_after "allow_remove" =
        JVal.bool false ∧
      jget (make_jsonform_run data0 tpl extras n).extras_after "_return_td" =
        JVal.bool true) ∧
    (∀ nr : NestedResult, (make_jsonform_run data0 tpl extras n).nested = some nr →
      nr.add_link = false ∧ nr.is_td = true ∧
      ∀ t ∈ nr.tables, t.removable = false) := by
  have hEchain : jExtend extras jsonformOverrides =
      jset (jset (jset extras "allow_add" (.bool false)) "allow_remove"
        (.bool false)) "_return_td" (.bool true) := rfl
  have hafter := make_jsonform_extras_after data0 tpl extras n
  have h1 : jget (make_jsonform_run data0 tpl extras n).extras_after
      "_return_td" = JVal.bool true := by
    rw [hafter, hEchain]
    exact jget_jset_self _ _ _
  have h2 : jget (make_jsonform_run data0 tpl extras n).extras_after
      "allow_remove" = JVal.bool false := by
    rw [hafter, hEchain, jget_jset_ne _ _ _ _ (by decide)]
    exact jget_jset_self _ _ _
  have h3 : jget (make_jsonform_run data0 tpl extras n).extras_after
      "allow_add" = JVal.bool false := by
    rw [hafter, hEchain, jget_jset_ne _ _ _ _ (by decide),
      jget_jset_ne _ _ _ _ (by decide)]
    exact jget_jset_self _ _ _
  have hndE : ((jExtend extras jsonformOverrides).map Prod.fst).Nodup := by
    rw [hEchain]
    exact nodup_keys_jset _ _ _ (nodup_keys_jset _ _ _ (nodup_keys_jset _ _ _ hnd))
  have hmem_aa : ("allow_add", JVal.bool false) ∈ jExtend extras jsonformOverrides := by
    rw [hEchain]
    exact mem_jset_of_ne _ _ _ _ _ (by decide)
      (mem_jset_of_ne _ _ _ _ _ (by decide) (mem_jset_self extras _ _))
  have hmem_ar : ("allow_remove", JVal.bool false) ∈ jExtend extras jsonformOverrides := by
    rw [hEchain]
    exact mem_jset_of_ne _ _ _ _ _ (by decide)
      (mem_jset_self (jset extras "allow_add" (.bool false)) _ _)
  have hmem_rt : ("_return_td", JVal.bool true) ∈ jExtend extras jsonformOverrides := by
    rw [hEchain]
    exact mem_jset_self _ _ _
  have hga : jget (jExtend nestedDefaults (jExtend extras jsonformOverrides))
      "allow_add" = JVal.bool false :=
    jget_jExtend_of_mem _ _ _ _ hndE hmem_aa (fun h => JVal.noConfusion h)
  have hgr : jget (jExtend nestedDefaults (jExtend extras jsonformOverrides))
      "allow_remove" = JVal.bool false :=
    jget_jExtend_of_mem _ _ _ _ hndE hmem_ar (fun h => JVal.noConfusion h)
  have hgt : jget (jExtend nestedDefaults (jExtend extras jsonformOverrides))
      "_return_td" = JVal.bool true :=
    jget_jExtend_of_mem _ _ _ _ hndE hmem_rt (fun h => JVal.noConfusion h)
  refine ⟨⟨h3, h2, h1⟩, ?_⟩
  intro nr hnr
  rcases make_jsonform_nested_eq data0 tpl extras n with hnone | ⟨d', hsome⟩
  · rw [hnone] at hnr
    exact absurd hnr (by simp)
  · rw [hsome] at hnr
    obtain rfl := (Option.some.inj hnr).symm
    refine ⟨?_, ?_, ?_⟩
    · rw [makeNestedForm_add_link, hga]
      rfl
    · rw [makeNestedForm_is_td, hgt]
      rfl
    · intro t ht
      rw [makeNestedForm_removable _ _ _ _ _ _ t ht, hgr]
      rfl

/-- Witness for C10 at a concrete extras object `{add_icon: "+"}`: the
caller's object comes back with the three forced values, and the nested
form shows no add link. -/
theorem make_jsonform_overrides_witness :
    (jget (make_jsonform_run (JVal.obj []) [] [("add_icon", JVal.str "+")] 0).extras_after
        "allow_add" = JVal.bool false ∧
      jget (make_jsonform_run (JVal.obj []) [] [("add_icon", JVal.str "+")] 0).extras_after
        "allow_remove" = JVal.bool false ∧
      jget (make_jsonform_run (JVal.obj []) [] [("add_icon", JVal.str "+")] 0).extras_after
        "_return_td" = JVal.bool true) ∧
    (makeNestedForm_run "x" "x" []
      (jExtend [("add_icon", JVal.str "+")] jsonformOverrides)
      [("x", JVal.undef)] 0).add_link = false :=
  ⟨(make_jsonform_overrides (JVal.obj []) [] [("add_icon", JVal.str "+")] 0
      (by decide)).1,
   ((make_jsonform_overrides (JVal.obj []) [] [("add_icon", JVal.str "+")] 0
      (by decide)).2 _ rfl).1⟩

end JsonForms
